import Mathlib

/-!
Verification of the `select!`-based scheduling examples in
`examples_zh-CN/06_03_select/src/lib.rs` (the async-book repository).

The file shallowly embeds the four `select!` examples — `count`,
`add_two_streams`, and the two `run_loop` variants — together with the
behaviour of the library combinators they are built from as used at those
call sites: `futures::select!` (polls the non-terminated branches in a
per-activation shuffled order and dispatches the first `Ready` one; the
`complete` branch fires when every branch is terminated; the `default`
branch fires when no branch is ready but not all are terminated),
`Fuse` / `Fuse::terminated` / `Pin::set`, `future::ready`, fused streams,
and `FuturesUnordered` driven through `select_next_some`.

Machine integers: the only arithmetic in the examples is the `u8`
accumulation `total += next_num` in `add_two_streams`; it is embedded as
`(total + v) % 256` on `Nat` (wrap-around semantics of the unchecked add).
-/

namespace AsyncBook

/-! ## `count` (mod `default_and_complete`, lib.rs lines 33-47)

`a_fut = future::ready(4)` and `b_fut = future::ready(6)` are fused
futures with no pending state: a `future::ready` value is ready until its
value is taken and terminated afterwards, so it is embedded as an
`Option Nat` (`some v` = still holding `v`, `none` = terminated). -/

/-- Events observable from one `count` loop iteration: the `a` handler,
the `b` handler, the `default` branch (which runs `unreachable!()` in the
source), and the `complete` branch (which breaks the loop). -/
inductive CEv where
  | ha
  | hb
  | cdefault
  | ccomplete
deriving DecidableEq

/-- State of the `count` loop: the two `future::ready` futures and the
running total. -/
structure CountSt where
  aFut : Option Nat
  bFut : Option Nat
  total : Nat
deriving DecidableEq

/-- Outcome of one `select!` activation inside `count`. -/
inductive CountRes where
  | dispatch (e : CEv) (s : CountSt)
  | complete
  | wouldDefault
deriving DecidableEq

/-- One `select!` activation of the `count` loop.  `pickA` is the shuffle
outcome: which of the two branches is polled first when both futures are
still live (both are ready whenever live, so the first polled live branch
dispatches).  When exactly one future is live it dispatches regardless of
the order; when both are terminated the `complete` branch fires.  The
`default` branch would fire only if some branch were pending — a state a
`future::ready` never exhibits, mirrored by the absent `match` case. -/
def countStep (pickA : Bool) (s : CountSt) : CountRes :=
  match s.aFut, s.bFut with
  | some a, some b =>
    if pickA then .dispatch .ha ⟨none, some b, s.total + a⟩
    else .dispatch .hb ⟨some a, none, s.total + b⟩
  | some a, none => .dispatch .ha ⟨none, none, s.total + a⟩
  | none, some b => .dispatch .hb ⟨none, none, s.total + b⟩
  | none, none => .complete

/-- The `count` loop: one activation per iteration, accumulating the event
trace, until `complete` breaks the loop (or the fuel runs out).  `pick n`
is the shuffle outcome of activation `n`. -/
def countRun (pick : Nat → Bool) : Nat → Nat → CountSt → List CEv × Nat
  | 0, _, s => ([], s.total)
  | fuel+1, n, s =>
    match countStep (pick n) s with
    | .dispatch e s' =>
      let r := countRun pick fuel (n+1) s'
      (e :: r.1, r.2)
    | .complete => ([CEv.ccomplete], s.total)
    | .wouldDefault => ([CEv.cdefault], s.total)

/-- `count()` from the source: `a_fut = future::ready(4)`,
`b_fut = future::ready(6)`, `total = 0`; three activations suffice for the
loop to reach its `complete` break. -/
def count (pick : Nat → Bool) : List CEv × Nat :=
  countRun pick 3 0 ⟨some 4, some 6, 0⟩

/-! ## `add_two_streams` (mod `fused_stream`, lib.rs lines 63-81)

A finite fused stream is a list of pending `u8` elements plus the
`is_terminated` flag.  `s.next()` on a live stream is immediately ready:
with `v :: rest` it yields `Some v`; with no elements left it yields
`None` once and the stream becomes terminated.  A terminated stream's
branch is skipped by `select!`. -/

/-- A finite fused stream of `u8` values. -/
structure FStream where
  elems : List Nat
  term : Bool
deriving DecidableEq

/-- Events of the `add_two_streams` loop: an element from `s1` or `s2`, the
terminal `None` of `s1` or `s2`, and the `complete` break. -/
inductive AEv where
  | yield1 (v : Nat)
  | yield2 (v : Nat)
  | end1
  | end2
  | acomplete
deriving DecidableEq

/-- Dispatch of the `x = s1.next()` branch: yield the head element and add
it to the `u8` total (wrap-around), or report exhaustion and terminate. -/
def next1 (s1 s2 : FStream) (total : Nat) : AEv × FStream × FStream × Nat :=
  match s1.elems with
  | v :: rest => (.yield1 v, { s1 with elems := rest }, s2, (total + v) % 256)
  | [] => (.end1, { s1 with term := true }, s2, total)

/-- Dispatch of the `x = s2.next()` branch. -/
def next2 (s1 s2 : FStream) (total : Nat) : AEv × FStream × FStream × Nat :=
  match s2.elems with
  | v :: rest => (.yield2 v, s1, { s2 with elems := rest }, (total + v) % 256)
  | [] => (.end2, s1, { s2 with term := true }, total)

/-- One `select!` activation of the `add_two_streams` loop.  Terminated
branches are skipped; a live stream's `next()` is always ready, so when
both are live the shuffle outcome `pickOne` decides which branch is polled
first and hence dispatches; `none` is the `complete` break (both streams
terminated). -/
def addStep (pickOne : Bool) (s1 s2 : FStream) (total : Nat) :
    Option (AEv × FStream × FStream × Nat) :=
  if s1.term then
    if s2.term then none
    else some (next2 s1 s2 total)
  else if s2.term then some (next1 s1 s2 total)
  else if pickOne then some (next1 s1 s2 total)
  else some (next2 s1 s2 total)

/-- The `add_two_streams` loop: runs activations until `complete` breaks it
(or the fuel runs out), returning the event trace and the final `u8`
total. -/
def addRun (pick : Nat → Bool) : Nat → Nat → FStream → FStream → Nat → List AEv × Nat
  | 0, _, _, _, total => ([], total)
  | fuel+1, n, s1, s2, total =>
    match addStep (pick n) s1 s2 total with
    | none => ([AEv.acomplete], total)
    | some (e, s1', s2', total') =>
      let r := addRun pick fuel (n+1) s1' s2' total'
      (e :: r.1, r.2)

/-- Number of activations a stream can still consume: one per element plus
one for the terminal `None` report. -/
def sMeasure (s : FStream) : Nat :=
  s.elems.length + (if s.term then 0 else 1)

/-! ## One `select!` activation over an arbitrary branch list
(`race_tasks`, lib.rs lines 21-24, and the loop body of `count`,
lines 39-44)

The `select!` macro polls its branches one at a time in a per-activation
shuffled order: a branch whose future is already terminated is skipped
without being polled, and polling stops at (and dispatches) the first
branch that returns `Ready`. -/

/-- What polling a branch would return during the current activation. -/
inductive BranchSt where
  | bready
  | bpending
  | bterminated
deriving DecidableEq

/-- One `select!` activation over `k` registered branches.  `order` is the
shuffled order in which the macro visits the branches; the result is the
list of branches actually polled (in visit order) and the dispatched
branch, if any. -/
def selectPoll {k : Nat} (states : Fin k → BranchSt) :
    List (Fin k) → List (Fin k) × Option (Fin k)
  | [] => ([], none)
  | i :: rest =>
    match states i with
    | .bterminated => selectPoll states rest
    | .bready => ([i], some i)
    | .bpending =>
      let r := selectPoll states rest
      (i :: r.1, r.2)

/-- Branch states of an activation in which both registered sources are
ready, as in `count`'s first loop iteration (both `future::ready` futures
ready) or a `race_tasks` activation with both tasks finished. -/
def twoReady : Fin 2 → BranchSt := fun _ => .bready

/-! ## `Fuse`-based task slot (mod `fuse_terminated`, lib.rs lines 102-124)

`get_new_num_fut` / `run_on_new_num_fut` are `Fuse`d futures used as a
single-occupancy task holder: `Fuse::terminated()` is the empty slot,
`Pin::set(... .fuse())` arms it with a fresh task, and `select!` treats a
terminated slot as a branch that is never selected.  A task here is either
never-completing or immediately ready with a value. -/

/-- A cancellable task as observed through polling: one that never
completes, or one that is immediately ready with value `v`. -/
inductive CTask where
  | never
  | now (v : Nat)
deriving DecidableEq

/-- A single-occupancy task slot: `none` is the fuse-terminated (empty)
state, `some t` holds the in-flight task `t`. -/
abbrev TaskSlot := Option CTask

/-- The three outcomes of polling a slot through `select!`: ready with a
value, still pending, or terminated (empty — never selected). -/
inductive SPoll where
  | sready (v : Nat)
  | spending
  | sterminated
deriving DecidableEq

/-- `Pin::set(slot, task.fuse())`: arms the slot with `t`, unconditionally
replacing (and thereby abandoning) any previous occupant. -/
def slotArm (t : CTask) (_s : TaskSlot) : TaskSlot :=
  some t

/-- Poll the slot once: an empty slot reports `Terminated`; a
never-completing occupant stays pending; an immediately-ready occupant
yields its value and the fuse empties the slot. -/
def slotPoll : TaskSlot → SPoll × TaskSlot
  | none => (.sterminated, none)
  | some .never => (.spending, some .never)
  | some (.now v) => (.sready v, none)

/-- The observation trace of polling a slot `n` times in a row. -/
def slotTrace : Nat → TaskSlot → List SPoll
  | 0, _ => []
  | n+1, s =>
    let r := slotPoll s
    r.1 :: slotTrace n r.2

/-! ## The two `run_loop` variants (lib.rs lines 98-126 and 147-177)

Both loops are driven by the environment: which branch of the `select!`
fires at an activation depends on when the timer ticks, when the in-flight
futures complete, and on the shuffle — all external to the loop body.  The
loops are therefore embedded as labelled transition systems: an action
names the branch the activation dispatches, the step function checks the
action against the state (an action whose branch is not ready is a no-op)
and applies the handler from the source.  `get_new_num()` returns `5` and
the `futures_unordered` variant's `run_on_new_num(_)` returns `5`. -/

/-- A fused single-occupancy future holder (`Fuse`): terminated (empty) or
holding an in-flight task that will eventually produce `v`. -/
inductive FuseF (α : Type) where
  | fterminated
  | factive (v : α)
deriving DecidableEq

/-- `Fuse::<F>::is_terminated()`. -/
def fuseTerm {α : Type} : FuseF α → Bool
  | .fterminated => true
  | .factive _ => false

/-- `async fn get_new_num() -> u8 { 5 }`: the value an armed
`get_new_num` task produces. -/
def get_new_num : Nat := 5

/-- `async fn run_on_new_num(_: u8) -> u8 { 5 }` (the `futures_unordered`
variant): the value a spawned `run_on_new_num` task produces. -/
def run_on_new_num (_v : Nat) : Nat := 5

/-- Environment actions driving a `run_loop` activation: a timer tick, the
timer stream reporting exhaustion (its `None`, which terminates the
branch without dispatching a handler), the in-flight `get_new_num`
completing, the in-flight `run_on_new_num` completing (first variant), or
pool member `i` completing (second variant). -/
inductive LAct where
  | tick
  | timerEnd
  | numReady
  | runDone
  | poolDone (i : Nat)
deriving DecidableEq

/-- State of `fuse_terminated::run_loop`: the fused `interval_timer`
exhaustion flag, the `get_new_num_fut` slot and the `run_on_new_num_fut`
slot. -/
structure Loop1St where
  timerTerm : Bool
  getFut : FuseF Nat
  runFut : FuseF Unit
deriving DecidableEq

/-- Initial state of `fuse_terminated::run_loop`:
`run_on_new_num_fut = run_on_new_num(starting_num).fuse()` is in flight
and `get_new_num_fut = Fuse::terminated()`. -/
def init1 : Loop1St :=
  ⟨false, .fterminated, .factive ()⟩

/-- One dispatched activation of `fuse_terminated::run_loop`: `none` means
the action's branch is not ready in this state (no dispatch happens). -/
def step1 (a : LAct) (s : Loop1St) : Option Loop1St :=
  match a with
  | .tick =>
    if s.timerTerm then none
    else some { s with getFut := if fuseTerm s.getFut then .factive get_new_num else s.getFut }
  | .timerEnd =>
    if s.timerTerm then none else some { s with timerTerm := true }
  | .numReady =>
    match s.getFut with
    | .factive _ => some { s with getFut := .fterminated, runFut := .factive () }
    | .fterminated => none
  | .runDone =>
    match s.runFut with
    | .factive _ => some { s with runFut := .fterminated }
    | .fterminated => none
  | .poolDone _ => none

/-- The `complete` condition of `fuse_terminated::run_loop`: every branch
terminated. -/
def allTerm1 (s : Loop1St) : Bool :=
  s.timerTerm && fuseTerm s.getFut && fuseTerm s.runFut

/-- State of `futures_unordered::run_loop`: the timer exhaustion flag, the
`get_new_num_fut` slot, and `run_on_new_num_futs` — the values the
in-flight pool members will produce. -/
structure Loop2St where
  timerTerm : Bool
  getFut : FuseF Nat
  pool : List Nat
deriving DecidableEq

/-- Initial state of `futures_unordered::run_loop`: the pool holds
`run_on_new_num(starting_num)` and `get_new_num_fut = Fuse::terminated()`. -/
def init2 (starting_num : Nat) : Loop2St :=
  ⟨false, .fterminated, [run_on_new_num starting_num]⟩

/-- One dispatched activation of `futures_unordered::run_loop`. -/
def step2 (a : LAct) (s : Loop2St) : Option Loop2St :=
  match a with
  | .tick =>
    if s.timerTerm then none
    else some { s with getFut := if fuseTerm s.getFut then .factive get_new_num else s.getFut }
  | .timerEnd =>
    if s.timerTerm then none else some { s with timerTerm := true }
  | .numReady =>
    match s.getFut with
    | .factive v => some { s with getFut := .fterminated, pool := s.pool ++ [run_on_new_num v] }
    | .fterminated => none
  | .poolDone i =>
    if i < s.pool.length then some { s with pool := s.pool.eraseIdx i } else none
  | .runDone => none

/-- The `complete` condition of `futures_unordered::run_loop`: the timer
and `get_new_num_fut` are terminated and the pool is empty
(`FuturesUnordered::is_terminated()` holds iff the pool is empty). -/
def allTerm2 (s : Loop2St) : Bool :=
  s.timerTerm && fuseTerm s.getFut && s.pool.isEmpty

/-- The message of the `complete` branch's panic in both `run_loop`s. -/
def panicMsg : String := "`interval_timer` completed unexpectedly"

/-- Run `fuse_terminated::run_loop` over a schedule of environment
actions.  Each activation first checks the `complete` condition — whose
handler panics, embedded as `Except.error` — and otherwise dispatches the
next action (invalid actions are no-ops).  `Except.ok` means the loop is
still running (suspended) when the schedule ends; the loop has no normal
exit. -/
def run1 : List LAct → Loop1St → Except String Loop1St
  | [], s => if allTerm1 s then .error panicMsg else .ok s
  | a :: rest, s =>
    if allTerm1 s then .error panicMsg
    else
      match step1 a s with
      | some s' => run1 rest s'
      | none => run1 rest s

/-- Run `futures_unordered::run_loop` over a schedule of environment
actions (same conventions as `run1`). -/
def run2 : List LAct → Loop2St → Except String Loop2St
  | [], s => if allTerm2 s then .error panicMsg else .ok s
  | a :: rest, s =>
    if allTerm2 s then .error panicMsg
    else
      match step2 a s with
      | some s' => run2 rest s'
      | none => run2 rest s

/-! ## `FuturesUnordered` as a task pool (lib.rs lines 151-177)

A pool member is a task together with the activation at which it becomes
ready and the value it then produces.  Driving the pool through
`select_next_some` each activation polls the current members and yields a
completed one, removing it from the pool; members that have not completed
are left untouched.  `push` appends a member; pushes are modelled by a
schedule `push n` of the members inserted at activation `n`. -/

/-- A pool task: ready from activation `readyAt` on, producing `value`. -/
structure PTask where
  readyAt : Nat
  value : Nat
deriving DecidableEq

/-- Poll the pool members at activation `n`: the first member that has
become ready completes — it is removed and its value yielded; every other
member is left unchanged. -/
def pollAny (n : Nat) : List PTask → Option Nat × List PTask
  | [] => (none, [])
  | m :: rest =>
    if m.readyAt ≤ n then (some m.value, rest)
    else
      let r := pollAny n rest
      (r.1, m :: r.2)

/-- Drive the pool for a number of activations starting at activation `n`,
pushing `push i` at activation `i` before polling; the trace records the
value yielded at each activation (or `none`). -/
def poolTrace (push : Nat → List PTask) : Nat → Nat → List PTask → List (Option Nat)
  | 0, _, _ => []
  | fuel+1, n, pool =>
    let r := pollAny n (pool ++ push n)
    r.1 :: poolTrace push fuel (n+1) r.2

/-- A push schedule that inserts nothing. -/
def noPush : Nat → List PTask := fun _ => []

/-- The values a pool with no further pushes yields over `fuel`
activations starting at activation `n`. -/
def poolRunFrom (fuel n : Nat) (pool : List PTask) : List Nat :=
  (poolTrace noPush fuel n pool).filterMap id

/-- The values a pool with no further pushes yields over `fuel`
activations. -/
def poolRun (fuel : Nat) (pool : List PTask) : List Nat :=
  poolRunFrom fuel 0 pool

/-! ## Helper lemmas -/

/-- Master lemma for `add_two_streams`: with enough fuel for the loop to
reach its `complete` break, the trace ends in a single `complete` event
preceded by each live stream's terminal `None`, and the final total is
the wrap-around `u8` sum of the remaining elements. -/
lemma addRun_spec (pick : Nat → Bool) :
    ∀ fuel n s1 s2 total,
      sMeasure s1 + sMeasure s2 < fuel →
      (s1.term = true → s1.elems = []) →
      (s2.term = true → s2.elems = []) →
      total < 256 →
      ∃ tr, (addRun pick fuel n s1 s2 total).1 = tr ++ [AEv.acomplete] ∧
        AEv.acomplete ∉ tr ∧
        (s1.term = false → AEv.end1 ∈ tr) ∧
        (s2.term = false → AEv.end2 ∈ tr) ∧
        (addRun pick fuel n s1 s2 total).2 =
          (total + s1.elems.sum + s2.elems.sum) % 256 := by
  intro fuel
  induction fuel with
  | zero => intro n s1 s2 total hfuel _ _ _; omega
  | succ fuel ih =>
    intro n s1 s2 total hfuel hw1 hw2 htot
    by_cases hterm1 : s1.term = true
    · by_cases hterm2 : s2.term = true
      · -- both terminated: the `complete` branch breaks the loop
        refine ⟨[], ?_, ?_, ?_, ?_, ?_⟩ <;>
          simp [addRun, addStep, hterm1, hterm2, hw1 hterm1, hw2 hterm2,
            Nat.mod_eq_of_lt htot]
      · -- only `s2` live: its branch dispatches
        replace hterm2 : s2.term = false := by
          cases h : s2.term <;> simp_all
        cases helems : s2.elems with
        | cons v rest =>
          obtain ⟨tr, htr, hnc, he1, he2, htot'⟩ :=
            ih (n+1) s1 { s2 with elems := rest } ((total + v) % 256)
              (by simp [sMeasure, hterm2, helems] at hfuel ⊢; omega)
              hw1 (by simp [hterm2]) (Nat.mod_lt _ (by omega))
          refine ⟨AEv.yield2 v :: tr, ?_, ?_, ?_, ?_, ?_⟩
          · simp only [hterm2, helems] at htr
            simp [addRun, addStep, next2, hterm1, hterm2, helems, htr]
          · simp [hnc]
          · intro h; simp [hterm1] at h
          · intro _; exact List.mem_cons_of_mem _ (he2 (by simp [hterm2]))
          · simp only [addRun, addStep, next2, hterm1, hterm2, helems,
              if_true, if_false, ite_true, ite_false] at htot' ⊢
            simp [hw1 hterm1, helems] at htot' ⊢
            omega
        | nil =>
          obtain ⟨tr, htr, hnc, he1, he2, htot'⟩ :=
            ih (n+1) s1 { s2 with term := true } total
              (by simp [sMeasure, hterm2, helems] at hfuel ⊢; omega)
              hw1 (by simp [helems]) htot
          refine ⟨AEv.end2 :: tr, ?_, ?_, ?_, ?_, ?_⟩
          · simp only [hterm2, helems] at htr
            simp [addRun, addStep, next2, hterm1, hterm2, helems, htr]
          · simp [hnc]
          · intro h; simp [hterm1] at h
          · intro _; exact List.mem_cons_self _ _
          · simp only [addRun, addStep, next2, hterm1, hterm2, helems,
              if_true, if_false, ite_true, ite_false] at htot' ⊢
            simp [hw1 hterm1, helems] at htot' ⊢
            omega
    · replace hterm1 : s1.term = false := by
        cases h : s1.term <;> simp_all
      by_cases hterm2 : s2.term = true
      · -- only `s1` live: its branch dispatches
        cases helems : s1.elems with
        | cons v rest =>
          obtain ⟨tr, htr, hnc, he1, he2, htot'⟩ :=
            ih (n+1) { s1 with elems := rest } s2 ((total + v) % 256)
              (by simp [sMeasure, hterm1, helems] at hfuel ⊢; omega)
              (by simp [hterm1]) hw2 (Nat.mod_lt _ (by omega))
          refine ⟨AEv.yield1 v :: tr, ?_, ?_, ?_, ?_, ?_⟩
          · simp only [hterm1, helems] at htr
            simp [addRun, addStep, next1, hterm1, hterm2, helems, htr]
          · simp [hnc]
          · intro _; exact List.mem_cons_of_mem _ (he1 (by simp [hterm1]))
          · intro h; simp [hterm2] at h
          · simp only [addRun, addStep, next1, hterm1, hterm2, helems,
              if_true, if_false, ite_true, ite_false] at htot' ⊢
            simp [hw2 hterm2, helems] at htot' ⊢
            omega
        | nil =>
          obtain ⟨tr, htr, hnc, he1, he2, htot'⟩ :=
            ih (n+1) { s1 with term := true } s2 total
              (by simp [sMeasure, hterm1, helems] at hfuel ⊢; omega)
              (by simp [helems]) hw2 htot
          refine ⟨AEv.end1 :: tr, ?_, ?_, ?_, ?_, ?_⟩
          · simp only [hterm1, helems] at htr
            simp [addRun, addStep, next1, hterm1, hterm2, helems, htr]
          · simp [hnc]
          · intro _; exact List.mem_cons_self _ _
          · intro h; simp [hterm2] at h
          · simp only [addRun, addStep, next1, hterm1, hterm2, helems,
              if_true, if_false, ite_true, ite_false] at htot' ⊢
            simp [hw2 hterm2, helems] at htot' ⊢
            omega
      · -- both live: the shuffle decides which stream's branch dispatches
        replace hterm2 : s2.term = false := by
          cases h : s2.term <;> simp_all
        by_cases hpick : pick n = true
        · cases helems : s1.elems with
          | cons v rest =>
            obtain ⟨tr, htr, hnc, he1, he2, htot'⟩ :=
              ih (n+1) { s1 with elems := rest } s2 ((total + v) % 256)
                (by simp [sMeasure, hterm1, hterm2, helems] at hfuel ⊢; omega)
                (by simp [hterm1]) hw2 (Nat.mod_lt _ (by omega))
            refine ⟨AEv.yield1 v :: tr, ?_, ?_, ?_, ?_, ?_⟩
            · simp only [hterm1, helems] at htr
              simp [addRun, addStep, next1, hterm1, hterm2, hpick, helems, htr]
            · simp [hnc]
            · intro _; exact List.mem_cons_of_mem _ (he1 (by simp [hterm1]))
            · intro _; exact List.mem_cons_of_mem _ (he2 (by simp [hterm2]))
            · simp only [addRun, addStep, next1, hterm1, hterm2, hpick, helems,
                if_true, if_false, ite_true, ite_false] at htot' ⊢
              simp [helems] at htot' ⊢
              omega
          | nil =>
            obtain ⟨tr, htr, hnc, he1, he2, htot'⟩ :=
              ih (n+1) { s1 with term := true } s2 total
                (by simp [sMeasure, hterm1, hterm2, helems] at hfuel ⊢; omega)
                (by simp [helems]) hw2 htot
            refine ⟨AEv.end1 :: tr, ?_, ?_, ?_, ?_, ?_⟩
            · simp only [hterm1, helems] at htr
              simp [addRun, addStep, next1, hterm1, hterm2, hpick, helems, htr]
            · simp [hnc]
            · intro _; exact List.mem_cons_self _ _
            · intro _; exact List.mem_cons_of_mem _ (he2 (by simp [hterm2]))
            · simp only [addRun, addStep, next1, hterm1, hterm2, hpick, helems,
                if_true, if_false, ite_true, ite_false] at htot' ⊢
              simp [helems] at htot' ⊢
              omega
        · replace hpick : pick n = false := by
            cases h : pick n <;> simp_all
          cases helems : s2.elems with
          | cons v rest =>
            obtain ⟨tr, htr, hnc, he1, he2, htot'⟩ :=
              ih (n+1) s1 { s2 with elems := rest } ((total + v) % 256)
                (by simp [sMeasure, hterm1, hterm2, helems] at hfuel ⊢; omega)
                hw1 (by simp [hterm2]) (Nat.mod_lt _ (by omega))
            refine ⟨AEv.yield2 v :: tr, ?_, ?_, ?_, ?_, ?_⟩
            · simp only [hterm2, helems] at htr
              simp [addRun, addStep, next2, hterm1, hterm2, hpick, helems, htr]
            · simp [hnc]
            · intro _; exact List.mem_cons_of_mem _ (he1 (by simp [hterm1]))
            · intro _; exact List.mem_cons_of_mem _ (he2 (by simp [hterm2]))
            · simp only [addRun, addStep, next2, hterm1, hterm2, hpick, helems,
                if_true, if_false, ite_true, ite_false] at htot' ⊢
              simp [helems] at htot' ⊢
              omega
          | nil =>
            obtain ⟨tr, htr, hnc, he1, he2, htot'⟩ :=
              ih (n+1) s1 { s2 with term := true } total
                (by simp [sMeasure, hterm1, hterm2, helems] at hfuel ⊢; omega)
                hw1 (by simp [helems]) htot
            refine ⟨AEv.end2 :: tr, ?_, ?_, ?_, ?_, ?_⟩
            · simp only [hterm2, helems] at htr
              simp [addRun, addStep, next2, hterm1, hterm2, hpick, helems, htr]
            · simp [hnc]
            · intro _; exact List.mem_cons_of_mem _ (he1 (by simp [hterm1]))
            · intro _; exact List.mem_cons_self _ _
            · simp only [addRun, addStep, next2, hterm1, hterm2, hpick, helems,
                if_true, if_false, ite_true, ite_false] at htot' ⊢
              simp [helems] at htot' ⊢
              omega

/-- Polling an empty slot any number of times only ever reports
`Terminated`. -/
lemma slotTrace_none : ∀ n, slotTrace n none = List.replicate n SPoll.sterminated := by
  intro n
  induction n with
  | zero => rfl
  | succ n ih => simp [slotTrace, slotPoll, ih, List.replicate_succ]

/-- Polling a slot holding a never-completing task any number of times
only ever reports `Pending`. -/
lemma slotTrace_never :
    ∀ k, slotTrace k (some CTask.never) = List.replicate k SPoll.spending := by
  intro k
  induction k with
  | zero => rfl
  | succ k ih => simp [slotTrace, slotPoll, ih, List.replicate_succ]

/-- If no pool member has become ready, `pollAny` yields nothing and
leaves the pool untouched. -/
lemma pollAny_none_of (n : Nat) :
    ∀ l : List PTask, (∀ m ∈ l, ¬ m.readyAt ≤ n) → pollAny n l = (none, l) := by
  intro l
  induction l with
  | nil => intro _; rfl
  | cons m rest ih =>
    intro h
    have hm : ¬ m.readyAt ≤ n := h m (List.mem_cons_self _ _)
    simp [pollAny, hm, ih (fun m' hm' => h m' (List.mem_cons_of_mem _ hm'))]

/-- If `pollAny` yields nothing, no pool member had become ready. -/
lemma pollAny_fst_none (n : Nat) :
    ∀ l : List PTask, (pollAny n l).1 = none → ∀ m ∈ l, ¬ m.readyAt ≤ n := by
  intro l
  induction l with
  | nil => intro _; simp
  | cons m rest ih =>
    intro h
    by_cases hm : m.readyAt ≤ n
    · simp [pollAny, hm] at h
    · intro m' hm'
      rcases List.mem_cons.mp hm' with rfl | hmem
      · exact hm
      · exact ih (by simpa [pollAny, hm] using h) m' hmem

/-- If `pollAny` yields a value, it is the value of a ready member, and
the pool afterwards is the pool before with exactly that member
removed. -/
lemma pollAny_some (n : Nat) :
    ∀ (l : List PTask) (v : Nat), (pollAny n l).1 = some v →
      ∃ m, m ∈ l ∧ m.readyAt ≤ n ∧ m.value = v ∧ l.Perm (m :: (pollAny n l).2) := by
  intro l
  induction l with
  | nil => intro v h; simp [pollAny] at h
  | cons m rest ih =>
    intro v h
    by_cases hm : m.readyAt ≤ n
    · refine ⟨m, List.mem_cons_self _ _, hm, ?_, ?_⟩
      · simpa [pollAny, hm] using h
      · simp [pollAny, hm]
    · have h' : (pollAny n rest).1 = some v := by simpa [pollAny, hm] using h
      obtain ⟨m', hmem, hle, hv, hperm⟩ := ih v h'
      refine ⟨m', List.mem_cons_of_mem _ hmem, hle, hv, ?_⟩
      have h2 : (pollAny n (m :: rest)).2 = m :: (pollAny n rest).2 := by
        simp [pollAny, hm]
      rw [h2]
      exact (hperm.cons m).trans (List.Perm.swap m' m _)

/-- `pollAny` leaves every non-completed member in place: the remaining
pool is a sublist of the pool before. -/
lemma pollAny_sublist (n : Nat) (l : List PTask) : ((pollAny n l).2).Sublist l := by
  induction l with
  | nil => simp [pollAny]
  | cons m rest ih =>
    by_cases hm : m.readyAt ≤ n
    · simp [pollAny, hm]
    · simpa [pollAny, hm] using ih.cons₂ m

/-- A member that has not yet become ready survives `pollAny`
unchanged. -/
lemma pollAny_mem_of (n : Nat) :
    ∀ (l : List PTask) (m : PTask), m ∈ l → ¬ m.readyAt ≤ n →
      m ∈ (pollAny n l).2 := by
  intro l
  induction l with
  | nil => intro m hm _; simp at hm
  | cons m' rest ih =>
    intro m hm hlate
    by_cases hm' : m'.readyAt ≤ n
    · simp only [pollAny, hm', if_true]
      rcases List.mem_cons.mp hm with rfl | hmem
      · exact absurd hm' hlate
      · exact hmem
    · simp only [pollAny, hm', if_false]
      rcases List.mem_cons.mp hm with rfl | hmem
      · exact List.mem_cons_self _ _
      · exact List.mem_cons_of_mem _ (ih m hmem hlate)

/-- When exactly one member is ready, `pollAny` yields its value. -/
lemma pollAny_first (n : Nat) :
    ∀ (l : List PTask) (m : PTask), m ∈ l → m.readyAt ≤ n →
      (∀ m' ∈ l, m'.readyAt ≤ n → m' = m) →
      (pollAny n l).1 = some m.value := by
  intro l
  induction l with
  | nil => intro m hm _ _; simp at hm
  | cons m' rest ih =>
    intro m hm hle huniq
    by_cases hm' : m'.readyAt ≤ n
    · have heq : m' = m := huniq m' (List.mem_cons_self _ _) hm'
      subst heq
      simp [pollAny, hm']
    · have hmem : m ∈ rest := by
        rcases List.mem_cons.mp hm with rfl | hmem
        · exact absurd hle hm'
        · exact hmem
      have h' := ih m hmem hle
        (fun m'' hm'' hle'' => huniq m'' (List.mem_cons_of_mem _ hm'') hle'')
      simpa [pollAny, hm'] using h'

/-- Master lemma for the task pool: when the members' ready activations
are pairwise distinct and none lies in the past, driving the pool for
`fuel` activations from activation `n` yields exactly the values of the
members that become ready before activation `n + fuel`, each exactly
once. -/
lemma poolRunFrom_perm :
    ∀ (fuel n : Nat) (pool : List PTask),
      (pool.map (fun m => m.readyAt)).Nodup →
      (∀ m ∈ pool, n ≤ m.readyAt) →
      (poolRunFrom fuel n pool).Perm
        ((pool.filter (fun m => m.readyAt < n + fuel)).map (fun m => m.value)) := by
  intro fuel
  induction fuel with
  | zero =>
    intro n pool hnd hinv
    simp [poolRunFrom, poolTrace]
    exact hinv
  | succ fuel ih =>
    intro n pool hnd hinv
    cases h : (pollAny n pool).1 with
    | none =>
      have hall := pollAny_fst_none n pool h
      have hnone := pollAny_none_of n pool hall
      have hinv' : ∀ m ∈ pool, n + 1 ≤ m.readyAt := by
        intro m hm
        have h1 := hinv m hm
        have h2 := hall m hm
        omega
      have hpred : pool.filter (fun m => m.readyAt < n + (fuel + 1)) =
          pool.filter (fun m => m.readyAt < (n + 1) + fuel) := by
        apply List.filter_congr
        intro m _
        simp
        omega
      rw [hpred]
      have := ih (n + 1) pool hnd hinv'
      simpa [poolRunFrom, poolTrace, noPush, hnone] using this
    | some v =>
      obtain ⟨m, hmem, hle, hv, hperm⟩ := pollAny_some n pool v h
      have hmn : m.readyAt = n := Nat.le_antisymm hle (hinv m hmem)
      have hnd2 : ((m :: (pollAny n pool).2).map (fun m => m.readyAt)).Nodup :=
        (hperm.map _).nodup_iff.mp hnd
      rw [List.map_cons, List.nodup_cons] at hnd2
      obtain ⟨hnotmem, hnd2'⟩ := hnd2
      have hinv2 : ∀ m' ∈ (pollAny n pool).2, n + 1 ≤ m'.readyAt := by
        intro m' hm'
        have hmem' : m' ∈ pool := hperm.mem_iff.mpr (List.mem_cons_of_mem _ hm')
        have h1 : n ≤ m'.readyAt := hinv m' hmem'
        by_cases heq : m'.readyAt = n
        · exact absurd (List.mem_map.mpr ⟨m', hm', by rw [heq, hmn]⟩) hnotmem
        · omega
      have hrec := ih (n + 1) (pollAny n pool).2 hnd2' hinv2
      have hpm : m.readyAt < n + (fuel + 1) := by omega
      have hfc : (m :: (pollAny n pool).2).filter (fun m => m.readyAt < n + (fuel + 1)) =
          m :: ((pollAny n pool).2).filter (fun m => m.readyAt < n + (fuel + 1)) := by
        rw [List.filter_cons_of_pos]
        simpa using hpm
      have hpred : ((pollAny n pool).2).filter (fun m => m.readyAt < n + (fuel + 1)) =
          ((pollAny n pool).2).filter (fun m => m.readyAt < (n + 1) + fuel) := by
        apply List.filter_congr
        intro m' _
        simp
        omega
      have hperm2 : (pool.filter (fun m => m.readyAt < n + (fuel + 1))).Perm
          (m :: ((pollAny n pool).2).filter (fun m => m.readyAt < (n + 1) + fuel)) := by
        refine (hperm.filter _).trans ?_
        rw [hfc, hpred]
      have hLHS : poolRunFrom (fuel + 1) n pool =
          v :: poolRunFrom fuel (n + 1) (pollAny n pool).2 := by
        simp [poolRunFrom, poolTrace, noPush, h]
      rw [hLHS]
      refine List.Perm.trans ?_ ((hperm2.map (fun m => m.value)).symm)
      rw [List.map_cons, hv]
      exact hrec.cons v

/-! ## Claim theorems -/

/-- C2: for the Selector configured with the two immediately-ready sources
of values 4 and 6 (`count`), both value handlers fire exactly once each —
in either order, depending on the shuffle — before the `complete` branch
fires, the accumulated total is 10 when the loop exits, and the `default`
branch never fires. -/
theorem count_scenario (pick : Nat → Bool) :
    (count pick).2 = 10 ∧
    ((count pick).1 = [CEv.ha, CEv.hb, CEv.ccomplete] ∨
     (count pick).1 = [CEv.hb, CEv.ha, CEv.ccomplete]) := by
  cases h : pick 0 <;> simp [count, countRun, countStep, h]

/-- C1 counterexample: `add_two_streams` over the streams `[255]` and
`[1]` returns 0, not the mathematical sum 256 of the yielded elements —
the `u8` accumulator wraps around. -/
theorem add_two_streams_not_mathematical_sum :
    (addRun (fun _ => true) 8 0 ⟨[255], false⟩ ⟨[1], false⟩ 0).2 = 0 ∧
    ([255] : List Nat).sum + ([1] : List Nat).sum = 256 ∧
    (addRun (fun _ => true) 8 0 ⟨[255], false⟩ ⟨[1], false⟩ 0).2 ≠
      ([255] : List Nat).sum + ([1] : List Nat).sum := by
  decide

/-- C1 (amended): for every Selector driving two finite fused streams (as
in `add_two_streams`, with enough fuel for the run and both streams not
yet terminated), the run completes, and the `complete` handler fires
exactly once, only after both streams have individually reported their
terminal exhaustion; the returned total is the sum of every element
yielded by both streams reduced modulo 256 (`u8` wrap-around). -/
theorem add_two_streams_spec (pick : Nat → Bool) (s1 s2 : FStream) (fuel : Nat)
    (hfuel : sMeasure s1 + sMeasure s2 < fuel)
    (h1 : s1.term = false) (h2 : s2.term = false) :
    ∃ tr, (addRun pick fuel 0 s1 s2 0).1 = tr ++ [AEv.acomplete] ∧
      AEv.acomplete ∉ tr ∧ AEv.end1 ∈ tr ∧ AEv.end2 ∈ tr ∧
      (addRun pick fuel 0 s1 s2 0).2 = (s1.elems.sum + s2.elems.sum) % 256 := by
  obtain ⟨tr, htr, hnc, he1, he2, htot⟩ :=
    addRun_spec pick fuel 0 s1 s2 0 hfuel (by simp [h1]) (by simp [h2]) (by omega)
  exact ⟨tr, htr, hnc, he1 h1, he2 h2, by simpa using htot⟩

/-- Witness for C1 (amended) at the streams `[1, 2]` and `[3]`. -/
theorem add_two_streams_spec_witness :
    (sMeasure ⟨[1, 2], false⟩ + sMeasure ⟨[3], false⟩ < 8 ∧
     FStream.term ⟨[1, 2], false⟩ = false ∧ FStream.term ⟨[3], false⟩ = false) ∧
    (∃ tr, (addRun (fun _ => true) 8 0 ⟨[1, 2], false⟩ ⟨[3], false⟩ 0).1 =
        tr ++ [AEv.acomplete] ∧
      AEv.acomplete ∉ tr ∧ AEv.end1 ∈ tr ∧ AEv.end2 ∈ tr ∧
      (addRun (fun _ => true) 8 0 ⟨[1, 2], false⟩ ⟨[3], false⟩ 0).2 =
        ((FStream.elems ⟨[1, 2], false⟩).sum + (FStream.elems ⟨[3], false⟩).sum) % 256) :=
  ⟨⟨by decide, by decide, by decide⟩,
   add_two_streams_spec (fun _ => true) ⟨[1, 2], false⟩ ⟨[3], false⟩ 8
     (by decide) (by decide) (by decide)⟩

/-- C9: `add_two_streams` accumulates into a `u8`: whenever the elements
of the two streams sum to more than 255, the returned total is the sum of
all elements modulo 256 (wrap-around semantics of the unchecked
`total += next_num` on `u8`), and in particular differs from the
mathematical sum. -/
theorem add_two_streams_wraparound (pick : Nat → Bool) (s1 s2 : FStream) (fuel : Nat)
    (hfuel : sMeasure s1 + sMeasure s2 < fuel)
    (h1 : s1.term = false) (h2 : s2.term = false)
    (hbig : 255 < s1.elems.sum + s2.elems.sum) :
    (addRun pick fuel 0 s1 s2 0).2 = (s1.elems.sum + s2.elems.sum) % 256 ∧
    (addRun pick fuel 0 s1 s2 0).2 ≠ s1.elems.sum + s2.elems.sum := by
  obtain ⟨tr, _, _, _, _, htot⟩ :=
    addRun_spec pick fuel 0 s1 s2 0 hfuel (by simp [h1]) (by simp [h2]) (by omega)
  refine ⟨?_, ?_⟩ <;> rw [htot] <;> omega

/-- Witness for C9 at the streams `[200]` and `[100]`. -/
theorem add_two_streams_wraparound_witness :
    (sMeasure ⟨[200], false⟩ + sMeasure ⟨[100], false⟩ < 8 ∧
     FStream.term ⟨[200], false⟩ = false ∧ FStream.term ⟨[100], false⟩ = false ∧
     255 < (FStream.elems ⟨[200], false⟩).sum + (FStream.elems ⟨[100], false⟩).sum) ∧
    ((addRun (fun _ => true) 8 0 ⟨[200], false⟩ ⟨[100], false⟩ 0).2 =
      ((FStream.elems ⟨[200], false⟩).sum + (FStream.elems ⟨[100], false⟩).sum) % 256 ∧
     (addRun (fun _ => true) 8 0 ⟨[200], false⟩ ⟨[100], false⟩ 0).2 ≠
      (FStream.elems ⟨[200], false⟩).sum + (FStream.elems ⟨[100], false⟩).sum) :=
  ⟨⟨by decide, by decide, by decide, by decide⟩,
   add_two_streams_wraparound (fun _ => true) ⟨[200], false⟩ ⟨[100], false⟩ 8
     (by decide) (by decide) (by decide) (by decide)⟩

/-- C7 counterexample: in a single `select!` activation with both branches
ready and the visit order equal to the registration order, only branch 0
is polled — branch 1, though registered, is not polled at all in that
activation, so the Selector does not poll every registered source exactly
once. -/
theorem selectPoll_not_every_source :
    (selectPoll twoReady [0, 1]).1 = [(0 : Fin 2)] ∧
    (1 : Fin 2) ∉ (selectPoll twoReady [0, 1]).1 := by
  decide

/-- C7 (amended): in every single activation, `select!` visits the
branches in the per-activation shuffled order, skipping terminated
branches and stopping at the first ready one.  The branches actually
polled form a sublist of the visit order, so when that order has no
duplicates no source is polled twice within one activation — a single
ready value can never be consumed twice — and the dispatched branch, if
any, is one that polled ready. -/
theorem selectPoll_at_most_once {k : Nat} (states : Fin k → BranchSt)
    (order : List (Fin k)) :
    ((selectPoll states order).1).Sublist order ∧
    (order.Nodup → ((selectPoll states order).1).Nodup) ∧
    (∀ i, (selectPoll states order).2 = some i → states i = .bready) := by
  induction order with
  | nil =>
    refine ⟨by simp [selectPoll], by simp [selectPoll], ?_⟩
    intro i h
    simp [selectPoll] at h
  | cons j rest ih =>
    obtain ⟨ihs, ihn, ihd⟩ := ih
    cases hs : states j with
    | bterminated =>
      refine ⟨?_, ?_, ?_⟩
      · simp only [selectPoll, hs]
        exact ihs.cons j
      · intro hnd
        simp only [selectPoll, hs]
        exact ihn (List.nodup_cons.mp hnd).2
      · intro i h
        simp only [selectPoll, hs] at h
        exact ihd i h
    | bready =>
      refine ⟨?_, ?_, ?_⟩
      · simp only [selectPoll, hs]
        exact (List.nil_sublist rest).cons₂ j
      · intro _
        simp only [selectPoll, hs]
        exact List.nodup_singleton j
      · intro i h
        simp only [selectPoll, hs] at h
        obtain rfl : j = i := by simpa using h
        exact hs
    | bpending =>
      refine ⟨?_, ?_, ?_⟩
      · simp only [selectPoll, hs]
        exact ihs.cons₂ j
      · intro hnd
        obtain ⟨hj, hnd'⟩ := List.nodup_cons.mp hnd
        simp only [selectPoll, hs]
        refine List.nodup_cons.mpr ⟨?_, ihn hnd'⟩
        intro hmem
        exact hj (ihs.subset hmem)
      · intro i h
        simp only [selectPoll, hs] at h
        exact ihd i h

/-- Witness for C7 (amended) at two ready branches visited in
registration order. -/
theorem selectPoll_at_most_once_witness :
    ([0, 1] : List (Fin 2)).Nodup ∧ ((selectPoll twoReady [0, 1]).1).Nodup :=
  ⟨by decide, (selectPoll_at_most_once twoReady [0, 1]).2.1 (by decide)⟩

/-- C3: in both `run_loop` variants, whenever the timer has reported
exhaustion and every other source is also terminated (the `complete`
condition), the run terminates with the fatal panic of the `complete`
branch — never a silent all-complete exit — and the fault is returned to
the caller at once, with the remaining schedule ignored (no internal
retry). -/
theorem run_loop_unexpected_exhaustion :
    (∀ (acts : List LAct) (s : Loop1St), allTerm1 s = true →
      run1 acts s = Except.error panicMsg) ∧
    (∀ (acts : List LAct) (s : Loop2St), allTerm2 s = true →
      run2 acts s = Except.error panicMsg) := by
  constructor
  · intro acts s h
    cases acts <;> simp [run1, h]
  · intro acts s h
    cases acts <;> simp [run2, h]

/-- Witness for C3 at the all-terminated states of both variants. -/
theorem run_loop_unexpected_exhaustion_witness :
    allTerm1 ⟨true, FuseF.fterminated, FuseF.fterminated⟩ = true ∧
    run1 [LAct.tick] ⟨true, FuseF.fterminated, FuseF.fterminated⟩ =
      Except.error panicMsg ∧
    allTerm2 ⟨true, FuseF.fterminated, []⟩ = true ∧
    run2 [LAct.tick] ⟨true, FuseF.fterminated, []⟩ = Except.error panicMsg :=
  ⟨by decide,
   run_loop_unexpected_exhaustion.1 [LAct.tick] _ (by decide),
   by decide,
   run_loop_unexpected_exhaustion.2 [LAct.tick] _ (by decide)⟩

/-- C4: arming a task slot replaces the occupant unconditionally — the
result of `slotArm` does not depend on the previous occupant; a slot
holding a never-completing task observes no value however often it is
polled; after re-arming it with an immediately-ready task, only the
second task's value is ever observed (once, then the slot reports
`Terminated`), the first task being silently abandoned with no error
raised (polling is total — there is no error outcome); and in
`fuse_terminated::run_loop`, the `new_num` handler replaces
`run_on_new_num_fut` unconditionally, whatever it held. -/
theorem slot_arm_replaces_unconditionally (t : CTask) (s s' : TaskSlot)
    (k n v : Nat) :
    slotArm t s = slotArm t s' ∧
    slotTrace k (slotArm CTask.never s) = List.replicate k SPoll.spending ∧
    slotTrace (n + 1) (slotArm (CTask.now v) (slotArm CTask.never s)) =
      SPoll.sready v :: List.replicate n SPoll.sterminated ∧
    (∀ (st : Loop1St) (w : Nat),
      step1 LAct.numReady { st with getFut := FuseF.factive w } =
        some { st with getFut := FuseF.fterminated, runFut := FuseF.factive () }) := by
  refine ⟨rfl, slotTrace_never k, ?_, ?_⟩
  · simp [slotArm, slotTrace, slotPoll, slotTrace_none]
  · intro st w
    rfl

/-- C5: polling a task slot armed with an immediately-ready task yields
`Ready` with its value exactly once, and every subsequent poll without an
intervening arm reports `Terminated` — the fuse guard, so the emptied
slot's branch is never selected again. -/
theorem slot_ready_exactly_once (s : TaskSlot) (v n : Nat) :
    slotPoll (slotArm (CTask.now v) s) = (SPoll.sready v, none) ∧
    slotTrace (n + 1) (slotArm (CTask.now v) s) =
      SPoll.sready v :: List.replicate n SPoll.sterminated := by
  refine ⟨rfl, ?_⟩
  simp [slotArm, slotTrace, slotPoll, slotTrace_none]

/-- C10: in both `run_loop` variants at most one `get_new_num` task is
ever in flight: the slot starts terminated (`Fuse::terminated()`); a
timer tick arriving while a `get_new_num` is still pending leaves the
slot unchanged; and a tick arms a fresh `get_new_num` exactly when the
slot is terminated. -/
theorem get_new_num_at_most_one_in_flight (st1 : Loop1St) (st2 : Loop2St)
    (v w : Nat) :
    init1.getFut = FuseF.fterminated ∧
    (init2 w).getFut = FuseF.fterminated ∧
    step1 LAct.tick { st1 with getFut := FuseF.factive v } =
      (if st1.timerTerm then none
       else some { st1 with getFut := FuseF.factive v }) ∧
    step1 LAct.tick { st1 with getFut := FuseF.fterminated } =
      (if st1.timerTerm then none
       else some { st1 with getFut := FuseF.factive get_new_num }) ∧
    step2 LAct.tick { st2 with getFut := FuseF.factive v } =
      (if st2.timerTerm then none
       else some { st2 with getFut := FuseF.factive v }) ∧
    step2 LAct.tick { st2 with getFut := FuseF.fterminated } =
      (if st2.timerTerm then none
       else some { st2 with getFut := FuseF.factive get_new_num }) :=
  ⟨rfl, rfl, rfl, rfl, rfl, rfl⟩

/-- C6: a pool of tasks that become ready at pairwise-distinct
activations, driven long enough, yields each of its members' values
exactly once — all covered, none duplicated, none dropped (the yields are
a permutation of the values, whatever the insertion order, which the
multiset conclusion ignores) — and every activation leaves the
non-completed members in place with their state unchanged (the remaining
pool is a sublist of the pool before). -/
theorem task_pool_each_value_once (pool : List PTask) (fuel : Nat)
    (hnd : (pool.map (fun m => m.readyAt)).Nodup)
    (hlt : ∀ m ∈ pool, m.readyAt < fuel) :
    (poolRun fuel pool).Perm (pool.map (fun m => m.value)) ∧
    (∀ (n : Nat) (l : List PTask), ((pollAny n l).2).Sublist l) := by
  refine ⟨?_, fun n l => pollAny_sublist n l⟩
  have h := poolRunFrom_perm fuel 0 pool hnd (fun m _ => Nat.zero_le _)
  have hf : pool.filter (fun m => m.readyAt < 0 + fuel) = pool := by
    rw [List.filter_eq_self]
    intro m hm
    have := hlt m hm
    simp
    omega
  rw [hf] at h
  exact h

/-- Witness for C6 at a two-member pool ready at activations 0 and 1. -/
theorem task_pool_each_value_once_witness :
    (([(⟨0, 7⟩ : PTask), ⟨1, 9⟩].map (fun m => m.readyAt)).Nodup ∧
     ∀ m ∈ [(⟨0, 7⟩ : PTask), ⟨1, 9⟩], m.readyAt < 2) ∧
    (poolRun 2 [(⟨0, 7⟩ : PTask), ⟨1, 9⟩]).Perm [7, 9] :=
  ⟨⟨by decide, by decide⟩, by
    have h := (task_pool_each_value_once [(⟨0, 7⟩ : PTask), ⟨1, 9⟩] 2
      (by decide) (by decide)).1
    simpa using h⟩

/-- C8: fairness of the pool — when a task that becomes ready at
activation 1 is in the pool while new tasks are continuously pushed (all
ready activations pairwise distinct and tasks pushed at activation 1 not
ready before it), that task's value is reported at activation 1: within a
bounded number of activations, so a ready member is never starved by the
ongoing pushes. -/
theorem task_pool_no_starvation (push : Nat → List PTask) (pool : List PTask)
    (fuel v : Nat)
    (hmem : (⟨1, v⟩ : PTask) ∈ pool)
    (hnd : ((pool ++ push 0 ++ push 1).map (fun m => m.readyAt)).Nodup)
    (hp1 : ∀ m ∈ push 1, 1 ≤ m.readyAt)
    (hfuel : 2 ≤ fuel) :
    (poolTrace push fuel 0 pool)[1]? = some (some v) := by
  obtain ⟨t, rfl⟩ : ∃ t, fuel = t + 1 + 1 := ⟨fuel - 2, by omega⟩
  have htask : (⟨1, v⟩ : PTask) ∈ pool ++ push 0 := List.mem_append_left _ hmem
  have hsurv : (⟨1, v⟩ : PTask) ∈ (pollAny 0 (pool ++ push 0)).2 :=
    pollAny_mem_of 0 (pool ++ push 0) _ htask (by simp)
  have hmem1 : (⟨1, v⟩ : PTask) ∈ (pollAny 0 (pool ++ push 0)).2 ++ push 1 :=
    List.mem_append_left _ hsurv
  have hsub0 : ((pollAny 0 (pool ++ push 0)).2).Sublist (pool ++ push 0) :=
    pollAny_sublist 0 (pool ++ push 0)
  have hndp : (((pool ++ push 0) ++ push 1).map (fun m => m.readyAt)).Nodup := hnd
  have hnd0 : ((pool ++ push 0).map (fun m => m.readyAt)).Nodup :=
    hndp.sublist ((List.sublist_append_left _ _).map _)
  have hnd1 : (((pollAny 0 (pool ++ push 0)).2 ++ push 1).map
      (fun m => m.readyAt)).Nodup :=
    hndp.sublist ((hsub0.append (List.Sublist.refl _)).map _)
  have hno0 : ∀ m ∈ (pollAny 0 (pool ++ push 0)).2, ¬ m.readyAt = 0 := by
    intro m hm heq
    cases hcase : (pollAny 0 (pool ++ push 0)).1 with
    | none =>
      exact pollAny_fst_none 0 (pool ++ push 0) hcase m (hsub0.subset hm) (by omega)
    | some w =>
      obtain ⟨ms, hms, hle, _, hperm⟩ := pollAny_some 0 (pool ++ push 0) w hcase
      have hms0 : ms.readyAt = 0 := Nat.le_zero.mp hle
      have hndc : ((ms :: (pollAny 0 (pool ++ push 0)).2).map
          (fun m => m.readyAt)).Nodup := (hperm.map _).nodup_iff.mp hnd0
      rw [List.map_cons, List.nodup_cons] at hndc
      exact hndc.1 (List.mem_map.mpr ⟨m, hm, by rw [heq, hms0]⟩)
  have huniq : ∀ m' ∈ (pollAny 0 (pool ++ push 0)).2 ++ push 1,
      m'.readyAt ≤ 1 → m' = (⟨1, v⟩ : PTask) := by
    intro m' hm' hle
    have h1 : m'.readyAt = 1 := by
      rcases List.mem_append.mp hm' with hL | hR
      · have := hno0 m' hL
        omega
      · have := hp1 m' hR
        omega
    exact List.inj_on_of_nodup_map hnd1 hm' hmem1 (by rw [h1])
  have hfinal := pollAny_first 1 ((pollAny 0 (pool ++ push 0)).2 ++ push 1)
    ⟨1, v⟩ hmem1 (by simp) huniq
  simp only [poolTrace]
  simp [hfinal]

/-- Witness for C8 at a pool holding a task ready at activation 1 with a
fresh task pushed at every activation. -/
theorem task_pool_no_starvation_witness :
    ((⟨1, 42⟩ : PTask) ∈ [(⟨1, 42⟩ : PTask)] ∧
     (([(⟨1, 42⟩ : PTask)] ++ [(⟨2, 0⟩ : PTask)] ++ [(⟨3, 1⟩ : PTask)]).map
       (fun m => m.readyAt)).Nodup ∧
     (∀ m ∈ [(⟨3, 1⟩ : PTask)], 1 ≤ m.readyAt)) ∧
    (poolTrace (fun n => [(⟨n + 2, n⟩ : PTask)]) 2 0 [(⟨1, 42⟩ : PTask)])[1]? =
      some (some 42) :=
  ⟨⟨by decide, by decide, by decide⟩,
   task_pool_no_starvation (fun n => [(⟨n + 2, n⟩ : PTask)]) [(⟨1, 42⟩ : PTask)]
     2 42 (by decide) (by decide) (by decide) (by decide)⟩

end AsyncBook
